import Mathlib

/-!
Verification development for the core of the zarr3 library: shallow embedding
of the chunk grid and region engine (chunk_grid.rs, chunk_arr.rs), the codec
pipeline (codecs/mod.rs, codecs/ab/bytes_codec.rs, codecs/ab/sharding_indexed.rs,
codecs/bb/crc32c_codec.rs, codecs/aa/transpose.rs), node-name validation
(store/mod.rs) and the array I/O layer (node/array.rs), together with theorems
about the properties these components are specified to satisfy.

Machine integers (`u64`, `usize`, `u8`, `u32`) are embedded as `Nat`; the
sources' arithmetic on them never overflows at the inputs considered here, and
where a fixed width is observable (byte serialisation, the `u64::MAX` sentinel)
the width is made explicit.  Element types are instantiated at `u8` (one byte
per element), a legal instance of the sources' generic `T: ReflectedType`.
Fallible or panicking code is embedded with `Option`/`Except`, and functions
that mutate the store thread the store state explicitly.
-/

set_option maxRecDepth 100000

namespace Zarr

/-- Denotation of the `CIter` C-order index iterator (chunk_arr.rs) restricted
to shapes with no zero axis: every coordinate list below `shape`, last axis
fastest.  An empty shape denotes a single scalar coordinate. -/
def cOrderPos : List Nat → List (List Nat)
  | [] => [[]]
  | s :: rest => (List.range s).flatMap (fun i => (cOrderPos rest).map (fun c => i :: c))

/-- `CIter::new` yields nothing when the shape is empty or has a zero axis
(`next` starts as `None`); otherwise the iterator enumerates all indices in C
order. -/
def cIter (shape : List Nat) : List (List Nat) :=
  if shape.isEmpty || shape.any (fun s => s == 0) then [] else cOrderPos shape

/-- C-order (row-major) linear index of `idx` within an array of shape
`shape`. -/
def linIdx (shape idx : List Nat) : Nat :=
  (shape.zip idx).foldl (fun acc p => acc * p.1 + p.2) 0

/-- Elementwise sum of two coordinate lists. -/
def zipAdd (a b : List Nat) : List Nat :=
  List.zipWith (fun x y => x + y) a b

/-- Shallow model of `ArcArrayD<u8>`: a shape and the elements in C
(logical iteration) order. -/
structure NdArr where
  shape : List Nat
  data : List Nat
  deriving Repr, DecidableEq

/-- Product of a shape, the number of elements (`1` for a scalar shape). -/
def listProd (shape : List Nat) : Nat :=
  shape.foldl (fun a b => a * b) 1

/-- `ArcArrayD::from_elem`: an array of the given shape filled with one
value. -/
def fillArr (shape : List Nat) (v : Nat) : NdArr :=
  ⟨shape, List.replicate (listProd shape) v⟩

/-- `arr.slice(...)` for a unit-step region given by per-axis offset and
shape: gather the region's elements in C order. -/
def sliceArr (a : NdArr) (offset shape : List Nat) : NdArr :=
  ⟨shape, (cOrderPos shape).map (fun c => a.data.getD (linIdx a.shape (zipAdd offset c)) 0)⟩

/-- Write one element of the flat data. -/
def NdArr.setLin (a : NdArr) (i v : Nat) : NdArr :=
  ⟨a.shape, a.data.set i v⟩

/-- `view.assign(&sub)` where `view` is the unit-step region of `a` starting
at `offset` with `sub`'s shape. -/
def assignRegion (a : NdArr) (offset : List Nat) (sub : NdArr) : NdArr :=
  ((cOrderPos sub.shape).zip sub.data).foldl
    (fun acc p => acc.setLin (linIdx acc.shape (zipAdd offset p.1)) p.2) a

/-- `ArraySlice` (chunk_grid.rs): a per-axis offset and extent. -/
structure ArraySlice where
  offset : Nat
  shape : Nat
  deriving Repr, DecidableEq

/-- `ArraySlice::end`: `offset + shape`. -/
def ArraySlice.endOf (s : ArraySlice) : Nat :=
  s.offset + s.shape

/-- `ArraySlice::from_max`: `None` when `offset > max_shape` (strict),
otherwise the slice from `offset` to `max_shape`. -/
def ArraySlice.fromMax (offset maxShape : Nat) : Option ArraySlice :=
  if offset > maxShape then none else some ⟨offset, maxShape - offset⟩

/-- `ArraySlice::limit_extent`: clip the end of the slice to `max`. -/
def ArraySlice.limitExtent (s : ArraySlice) (max : Nat) : Option ArraySlice :=
  ArraySlice.fromMax s.offset (min max s.endOf)

/-- `ArrayRegion::limit_extent_unchecked`: clip every axis in order, with the
`?` early exit as soon as one axis's `limit_extent` is `None`. -/
def limitExtentUnchecked : List ArraySlice → List Nat → Option (List ArraySlice)
  | [], _ => some []
  | _ :: _, [] => some []
  | sl :: rs, m :: ms =>
    match sl.limitExtent m with
    | none => none
    | some sl2 =>
      match limitExtentUnchecked rs ms with
      | none => none
      | some rest => some (sl2 :: rest)

/-- `PartialChunk` (chunk_grid.rs): a chunk index with the chunk-local and
output-local sub-regions. -/
structure PartialChunk where
  chunkIdx : List Nat
  chunkRegion : List ArraySlice
  outRegion : List ArraySlice
  deriving Repr, DecidableEq

/-- Body of `PartialChunkIter::next` (chunk_arr.rs) for one local chunk index
`lcl`, looping over the axes `d < min_chunk.len()`. -/
def pcItem (minChunk minOff maxChunk maxOff cs lcl : List Nat) : PartialChunk :=
  let nd := minChunk.length
  let cIdx := fun d => minChunk.getD d 0 + lcl.getD d 0
  let cOff := fun d => if lcl.getD d 0 = 0 then minOff.getD d 0 else 0
  let oOff := fun d =>
    if lcl.getD d 0 = 0 then 0
    else cs.getD d 0 - minOff.getD d 0 + cs.getD d 0 * (lcl.getD d 0 - 1)
  let ext := fun d =>
    if cIdx d = maxChunk.getD d 0 then maxOff.getD d 0 - cOff d else cs.getD d 0 - cOff d
  { chunkIdx := (List.range nd).map cIdx
    chunkRegion := (List.range nd).map (fun d => ⟨cOff d, ext d⟩)
    outRegion := (List.range nd).map (fun d => ⟨oOff d, ext d⟩) }

/-- `RegularChunkGrid::voxel_chunk_unchecked`: per-axis chunk index and
in-chunk offset of a voxel. -/
def voxelChunk (cs idx : List Nat) : List Nat × List Nat :=
  ((idx.zip cs).map (fun p => p.1 / p.2), (idx.zip cs).map (fun p => p.1 % p.2))

/-- `RegularChunkGrid::chunks_in_region_unchecked` followed by draining the
resulting `PartialChunkIter`: the iterator covers local chunk indices of shape
`max_chunk - min_chunk + 1` per axis, in C order. -/
def chunksInRegion (cs : List Nat) (region : List ArraySlice) : List PartialChunk :=
  let mn := voxelChunk cs (region.map (fun s => s.offset))
  let mx := voxelChunk cs (region.map (fun s => s.endOf))
  let shape := (mn.1.zip mx.1).map (fun p => p.2 - p.1 + 1)
  (cIter shape).map (pcItem mn.1 mn.2 mx.1 mx.2 cs)

/-- Error kinds of `NodeName::validate` (store/mod.rs). -/
inductive InvalidNodeName where
  | empty
  | hasSlash
  | isPeriods
  | reservedPrefix
  deriving Repr, DecidableEq

/-- Loop of `NodeName::validate`, threading `is_periods`, `is_underscore` and
`len` through the characters; on success it returns the final
`(is_periods, len)` pair for the post-loop checks.  The `warn!` about
non-recommended characters is a pure side effect and is omitted. -/
def validateLoop : List Char → Bool → Bool → Nat → Except InvalidNodeName (Bool × Nat)
  | [], ip, _, len => .ok (ip, len)
  | c :: rest, ip, iu, len =>
    let ip := ip && (c == '.')
    if iu && decide (2 ≤ len) then .error .reservedPrefix
    else
      let iu := iu && (c == '_')
      if c == '/' then .error .hasSlash
      else validateLoop rest ip iu (len + 1)

/-- `NodeName::validate`. -/
def validate (s : List Char) : Except InvalidNodeName Unit :=
  match validateLoop s true true 0 with
  | .error e => .error e
  | .ok (ip, len) =>
    if len = 0 then .error .empty
    else if ip then .error .isPeriods
    else .ok ()

/-- Little-endian byte serialisation of `n` over `w` bytes (`n` truncated to
`8·w` bits), as written by `byteorder::LittleEndian`. -/
def leBytes (w n : Nat) : List Nat :=
  (List.range w).map (fun i => n / 256 ^ i % 256)

/-- Read a little-endian number from a byte list. -/
def fromLe (bs : List Nat) : Nat :=
  bs.foldr (fun b acc => acc * 256 + b) 0

/-- Reversed CRC-32C polynomial (Castagnoli). -/
def crcPoly : Nat := 0x82F63B78

/-- One bit step of the reflected CRC-32C computation. -/
def crcStep (v : Nat) : Nat :=
  if v % 2 = 1 then Nat.xor (v / 2) crcPoly else v / 2

/-- Iterate `crcStep`. -/
def crcSteps : Nat → Nat → Nat
  | 0, v => v
  | n + 1, v => crcSteps n (crcStep v)

/-- CRC-32C of a byte list, bitwise reflected algorithm, the function computed
by the `crc32c` crate's `crc32c`. -/
def crc32c (bs : List Nat) : Nat :=
  Nat.xor (bs.foldl (fun crc b => crcSteps 8 (Nat.xor crc (b % 256))) 0xFFFFFFFF) 0xFFFFFFFF

/-- `Endian` (codecs/ab/bytes_codec.rs). -/
inductive Endian where
  | big
  | little
  deriving Repr, DecidableEq

/-- `Order` of the transpose codec (codecs/aa/transpose.rs). -/
inductive Order where
  | C
  | F
  | permutation (p : List Nat)
  deriving Repr, DecidableEq

/-- `TransposeCodec`. -/
structure TransposeCodec where
  order : Order
  deriving Repr, DecidableEq

/-- `ndarray::permuted_axes`: axis `i` of the output is axis `p[i]` of the
input, materialised in C order. -/
def permutedAxes (a : NdArr) (p : List Nat) : NdArr :=
  let outShape := p.map (fun i => a.shape.getD i 0)
  let srcCoord := fun (c : List Nat) =>
    (List.range a.shape.length).map (fun ax => c.getD (p.indexOf ax) 0)
  ⟨outShape, (cOrderPos outShape).map (fun c => a.data.getD (linIdx a.shape (srcCoord c)) 0)⟩

/-- `reverse_permutation` (transpose.rs): position `pos` maps to the index of
`pos` within `p`. -/
def reversePermutation (p : List Nat) : List Nat :=
  (List.range p.length).map (fun pos => p.indexOf pos)

/-- `TransposeCodec::encode`: C is a no-op, F reverses the axes, a permutation
permutes the axes by `order`. -/
def transposeEncode (o : Order) (a : NdArr) : NdArr :=
  match o with
  | .C => a
  | .F => permutedAxes a (List.range a.shape.length).reverse
  | .permutation p => permutedAxes a p

/-- `TransposeCodec::decode`: applies the inverse permutation. -/
def transposeDecode (o : Order) (a : NdArr) : NdArr :=
  match o with
  | .C => a
  | .F => permutedAxes a (List.range a.shape.length).reverse
  | .permutation p => permutedAxes a (reversePermutation p)

/-- `TransposeCodec::compute_encoded_representation` on the shape. -/
def transposeShape (o : Order) (shape : List Nat) : List Nat :=
  match o with
  | .C => shape
  | .F => shape.reverse
  | .permutation p => p.map (fun i => shape.getD i 0)

/-- Modelled from the spec: the `AACodec` impl for `&[AACodecType]` invoked by
`CodecChain::encode` is absent from the sources; per spec section 4.G the
decoded array is fed "through AA encoders in forward order".  The per-codec
operation is `transposeEncode` from transpose.rs. -/
def aaChainEncode (aas : List TransposeCodec) (a : NdArr) : NdArr :=
  aas.foldl (fun acc c => transposeEncode c.order acc) a

/-- Modelled from the spec: "AA decoders run in reverse" (spec section 4.G);
the per-codec operation is `transposeDecode` from transpose.rs. -/
def aaChainDecode (aas : List TransposeCodec) (a : NdArr) : NdArr :=
  aas.foldr (fun c acc => transposeDecode c.order acc) a

/-- Modelled from the spec: `compute_encoded_representation` of the AA chain
transforms the decoded shape through each codec in forward order. -/
def aaChainShape (aas : List TransposeCodec) (shape : List Nat) : List Nat :=
  aas.foldl (fun acc c => transposeShape c.order acc) shape

/-- Bytes→bytes codecs modelled here: the crc32c codec
(codecs/bb/crc32c_codec.rs).  gzip and blosc are opaque third-party
transforms, out of the spec's scope, and no claim quantifies over them. -/
inductive BBCodecT where
  | crc32cCodec
  deriving Repr, DecidableEq

/-- Functional form of one BB encoder: `Crc32cWriter` appends the
little-endian CRC-32C of the payload when `finalize` is called. -/
def bbEncodeOne : BBCodecT → List Nat → List Nat
  | .crc32cCodec, bs => bs ++ leBytes 4 (crc32c bs)

/-- Functional form of one BB decoder: `validate_crc32c` splits the trailing
4 bytes and compares them with the CRC-32C of the prefix. -/
def bbDecodeOne : BBCodecT → List Nat → Except String (List Nat)
  | .crc32cCodec, bs =>
    if bs.length < 4 then .error "Expected CRC32C payload was too short"
    else
      let pre := bs.take (bs.length - 4)
      let suf := bs.drop (bs.length - 4)
      if fromLe suf = crc32c pre then .ok pre else .error "Failed CRC32C checksum"

/-- `impl BBCodec for &[BBCodecType]` (codecs/bb/mod.rs): encoding composes
the codecs in forward order. -/
def bbChainEncode (bbs : List BBCodecT) (bs : List Nat) : List Nat :=
  bbs.foldl (fun acc c => bbEncodeOne c acc) bs

/-- `impl BBCodec for &[BBCodecType]`: decoding composes in reverse order. -/
def bbChainDecode : List BBCodecT → List Nat → Except String (List Nat)
  | [], bs => .ok bs
  | c :: rest, bs => (bbChainDecode rest bs).bind (bbDecodeOne c)

/-- Decoded representation `ArrayRepr<u8>`: a shape and a fill value. -/
structure ArrayRepr where
  shape : List Nat
  fill : Nat
  deriving Repr, DecidableEq

/-- `BytesCodec::encode` at `T = u8` (`write_array_to`): each element is one
byte, written in logical C order; both endian configurations and `None` are
valid for the single-byte type. -/
def bytesEncode (a : NdArr) : List Nat :=
  a.data.map (fun v => v % 256)

/-- `BytesCodec::decode` at `T = u8` (`read_array_from`): read
`product(shape)` one-byte elements; a short stream panics (`None`). -/
def bytesDecode (bs : List Nat) (shape : List Nat) : Option NdArr :=
  let numel := listProd shape
  if bs.length < numel then none else some ⟨shape, bs.take numel⟩

/-- `ChunkIterOutput` (chunk_arr.rs). -/
structure ChunkIterOutput where
  chunkIdx : List Nat
  offset : List Nat
  shape : List Nat
  deriving Repr, DecidableEq

/-- `ChunkIter::new` plus draining: C-order chunk indices over the
ceil-divided grid, with per-chunk offset and edge-truncated shape
(`idx_to_output`). -/
def chunkIterList (cs arrShape : List Nat) : List ChunkIterOutput :=
  let nChunks := (arrShape.zip cs).map
    (fun p => if p.1 % p.2 = 0 then p.1 / p.2 else p.1 / p.2 + 1)
  (cIter nChunks).map (fun cidx =>
    let offset := (cidx.zip cs).map (fun p => p.1 * p.2)
    let shape := (offset.zip (cs.zip arrShape)).map
      (fun p => if p.1 + p.2.1 > p.2.2 then p.2.2 - p.1 else p.2.1)
    ⟨cidx, offset, shape⟩)

/-- Divisibility check of `ChunkIter::new_strict`: every axis of the array
shape is an exact multiple of the chunk shape. -/
def dividesExactly (cs arrShape : List Nat) : Bool :=
  (arrShape.zip cs).all (fun p => p.1 % p.2 == 0)

/-- `ChunkAddress` (sharding_indexed.rs): offset and length of one sub-chunk's
payload within a shard. -/
structure ChunkAddress where
  offset : Nat
  nbytes : Nat
  deriving Repr, DecidableEq

/-- The `u64::MAX` sentinel value. -/
def u64MAX : Nat := 2 ^ 64 - 1

/-- `ChunkAddress::is_empty`: the `(u64::MAX, u64::MAX)` sentinel. -/
def ChunkAddress.isEmptyAddr (a : ChunkAddress) : Bool :=
  a.offset == u64MAX && a.nbytes == u64MAX

/-- `ChunkAddress::write_to`: two little-endian u64s. -/
def ChunkAddress.writeTo (a : ChunkAddress) : List Nat :=
  leBytes 8 a.offset ++ leBytes 8 a.nbytes

/-- Error kinds of `ChunkSpecConstructionError`. -/
inductive ChunkSpecConstructionError where
  | malformedSpec
  | ioError
  | checksumFailure
  deriving Repr, DecidableEq

/-- `ChunkSpec`: the parsed shard index. -/
structure ChunkSpec where
  chunkIdxs : List ChunkAddress
  shape : List Nat
  deriving Repr, DecidableEq

/-- `ChunkSpec::new` with `ChunkSpecError::check_data`: the index shape must
be non-empty, contain no zero, and its product must match the number of
addresses. -/
def ChunkSpec.new (cIdxs : List ChunkAddress) (shape : List Nat) :
    Except ChunkSpecConstructionError ChunkSpec :=
  if shape.isEmpty then .error .malformedSpec
  else if shape.any (fun s => s == 0) then .error .malformedSpec
  else if cIdxs.length ≠ listProd shape then .error .malformedSpec
  else .ok ⟨cIdxs, shape⟩

/-- `ChunkSpec::from_reader`: read the `16·N + 4`-byte footer, compute the
CRC-32C of its first `16·N` bytes, parse the `N` addresses and the stored
little-endian u32 checksum.  As in the source, the spec is returned when the
computed and stored checksums DIFFER, and `ChecksumFailure` when they are
equal. -/
def ChunkSpec.fromReader (bs : List Nat) (shape : List Nat) :
    Except ChunkSpecConstructionError ChunkSpec :=
  let n := shape.foldl (fun acc x => acc * x) 1
  let bufLen := n * 16 + 4
  if bs.length < bufLen then .error .ioError
  else
    let buf := bs.take bufLen
    let chksumCalc := crc32c (buf.take (bufLen - 4))
    let cIdxs := (List.range n).map (fun i =>
      ChunkAddress.mk (fromLe ((buf.drop (16 * i)).take 8))
        (fromLe ((buf.drop (16 * i + 8)).take 8)))
    let chksumRead := fromLe ((buf.drop (bufLen - 4)).take 4)
    if chksumCalc ≠ chksumRead then ChunkSpec.new cIdxs shape
    else .error .checksumFailure

/-- `ChunkSpec::from_shard`: with `prod` index entries expected, seek to
`SeekFrom::End(-(16·prod + 4))` — an IO error when the stream is shorter than
that — and parse the footer from there. -/
def ChunkSpec.fromShard (bs : List Nat) (shape : List Nat) :
    Except ChunkSpecConstructionError ChunkSpec :=
  let prod := shape.foldl (fun a b => a * b) 1
  if prod = 0 then .ok ⟨[], shape⟩
  else
    let offset := prod * 16 + 4
    if bs.length < offset then .error .ioError
    else ChunkSpec.fromReader (bs.drop (bs.length - offset)) shape

/-- Loop of `to_linear_idx` (sharding_indexed.rs) over reversed
shape/coordinate pairs.  NB the source updates the stride to the axis length
instead of multiplying it, faithfully reproduced here. -/
def toLinearIdxGo : List (Nat × Nat) → Nat → Nat → Option Nat
  | [], total, _ => some total
  | (s, i) :: rest, total, prevS =>
    if i ≥ s then none else toLinearIdxGo rest (total + i * prevS) s

/-- `to_linear_idx`: C-order linear index, `none` when out of bounds or when
the dimensionalities differ (the caller unwraps both cases). -/
def toLinearIdx (coord shape : List Nat) : Option Nat :=
  if coord.length ≠ shape.length then none
  else toLinearIdxGo (shape.reverse.zip coord.reverse) 0 1

/-- `ChunkSpec::get_idx`: `none` stands for either error the caller would
unwrap. -/
def ChunkSpec.getIdx (spec : ChunkSpec) (idx : List Nat) : Option ChunkAddress :=
  match toLinearIdx idx spec.shape with
  | none => none
  | some t => spec.chunkIdxs.get? t

/-- `ShardingIndexedCodec`: the inner sub-chunk shape and the embedded codec
chain.  In the sources the chain's array→bytes codec can only be the bytes
codec (`ABCodecType` has the sharding variant commented out), so the inner
chain is non-recursive. -/
structure InnerChain where
  aa : List TransposeCodec
  abEndian : Option Endian
  bb : List BBCodecT
  deriving Repr, DecidableEq

/-- `CodecChain::encode` (codecs/mod.rs) for an inner chain at `T = u8`:
AA encoders forward, the bytes codec, then the BB encoder chain. -/
def innerChainEncode (ch : InnerChain) (a : NdArr) : List Nat :=
  bbChainEncode ch.bb (bytesEncode (aaChainEncode ch.aa a))

/-- `CodecChain::decode` for an inner chain at `T = u8`: BB decoders wrap the
raw bytes, the bytes codec reads an array of the AA-transformed shape, AA
decoders run in reverse. -/
def innerChainDecode (ch : InnerChain) (bs : List Nat) (repr : ArrayRepr) :
    Except String NdArr :=
  let abShape := aaChainShape ch.aa repr.shape
  match bbChainDecode ch.bb bs with
  | .error e => .error e
  | .ok inner =>
    match bytesDecode inner abShape with
    | none => .error "read_exact failed"
    | some arr => .ok (aaChainDecode ch.aa arr)

/-- `ShardingIndexedCodec` structure. -/
structure ShardingIndexedCodec where
  chunkShape : List Nat
  codecs : InnerChain
  deriving Repr, DecidableEq

/-- One step of the `ShardingIndexedCodec::encode` loop: encode the sliced
sub-chunk, append it to the payload, record `(offset, nbytes)`. -/
def shardEncodeStep (c : ShardingIndexedCodec) (a : NdArr)
    (acc : List Nat × List ChunkAddress) (info : ChunkIterOutput) :
    List Nat × List ChunkAddress :=
  let bytes := innerChainEncode c.codecs (sliceArr a info.offset info.shape)
  (acc.1 ++ bytes, acc.2 ++ [⟨acc.1.length, bytes.length⟩])

/-- `ShardingIndexedCodec::encode`: iterate sub-chunks in C order via
`ChunkIter::new_strict` (`none` models its unwrap panicking when the inner
shape does not divide the outer), concatenate the encoded payloads, then
append the 16-byte index entries.  The source writes NO checksum after the
index. -/
def shardEncode (c : ShardingIndexedCodec) (a : NdArr) : Option (List Nat) :=
  if c.chunkShape.length ≠ a.shape.length then none
  else if !dividesExactly c.chunkShape a.shape then none
  else
    let pa := (chunkIterList c.chunkShape a.shape).foldl (shardEncodeStep c a) ([], [])
    some (pa.1 ++ pa.2.flatMap ChunkAddress.writeTo)

/-- One step of the `ShardingIndexedCodec::decode` loop for a parsed index
`cspec` over shard bytes `bs`: look up the sub-chunk's address (panicking
lookups are errors), skip empty sub-chunks, bound `nbytes` by the payload
region, read and decode the payload and assign it into the output array. -/
def shardDecodeStep (c : ShardingIndexedCodec) (bs : List Nat)
    (cspec : ChunkSpec) (fill : Nat) (acc : Except String NdArr)
    (info : ChunkIterOutput) : Except String NdArr :=
  match acc with
  | .error e => .error e
  | .ok arr =>
    match cspec.getIdx info.chunkIdx with
    | none => .error "called Option::unwrap on a None value"
    | some addr =>
      if addr.isEmptyAddr then .ok arr
      else
        let nbytes := min addr.nbytes
          (bs.length - cspec.chunkIdxs.length * 16 - addr.offset)
        if addr.offset + nbytes > bs.length then .error "Could not read sub-chunk"
        else
          match innerChainDecode c.codecs ((bs.drop addr.offset).take nbytes)
              ⟨info.shape, fill⟩ with
          | .error e => .error e
          | .ok sub => .ok (assignRegion arr info.offset sub)

/-- `ShardingIndexedCodec::decode`: read the whole stream, compute
`n_chunks = shape / chunk_shape` per axis (floor), parse the index via
`ChunkSpec::from_shard`, then fill each non-empty sub-chunk in C order. -/
def shardDecode (c : ShardingIndexedCodec) (bs : List Nat) (repr : ArrayRepr) :
    Except String NdArr :=
  let nChunks := (repr.shape.zip c.chunkShape).map (fun p => p.1 / p.2)
  match ChunkSpec.fromShard bs nChunks with
  | .error _ => .error "Could not construct chunk spec"
  | .ok cspec =>
    if c.chunkShape.length ≠ repr.shape.length then .error "Could not iterate shard chunks"
    else if !dividesExactly c.chunkShape repr.shape then
      .error "Could not iterate shard chunks"
    else
      (chunkIterList c.chunkShape repr.shape).foldl
        (shardDecodeStep c bs cspec repr.fill) (.ok (fillArr repr.shape repr.fill))

/-- The array→bytes codecs implementing `ABCodec` in the sources: the bytes
codec (`ABCodecType::Bytes`) and the sharding codec (whose `impl ABCodec for
ShardingIndexedCodec` is live even though its `ABCodecType` variant is
commented out). -/
inductive ABCodecT where
  | bytes (endian : Option Endian)
  | shardingIndexed (c : ShardingIndexedCodec)
  deriving Repr, DecidableEq

/-- `CodecChain`: AA codecs, one AB codec, BB codecs. -/
structure CodecChain where
  aa : List TransposeCodec
  ab : ABCodecT
  bb : List BBCodecT
  deriving Repr, DecidableEq

/-- `CodecChain::encode` at `T = u8`: AA encoders in forward order, the AB
encoder writing through the BB encoder chain, `finalize`.  `none` models a
panic inside the AB codec. -/
def codecChainEncode (ch : CodecChain) (a : NdArr) : Option (List Nat) :=
  let arr := aaChainEncode ch.aa a
  match ch.ab with
  | .bytes _ => some (bbChainEncode ch.bb (bytesEncode arr))
  | .shardingIndexed s => (shardEncode s arr).map (bbChainEncode ch.bb)

/-- `CodecChain::decode` at `T = u8`: the BB decode chain wraps the raw
bytes, the AB codec decodes into the AA-transformed representation, AA
decoders run in reverse. -/
def codecChainDecode (ch : CodecChain) (bs : List Nat) (repr : ArrayRepr) :
    Except String NdArr :=
  let abShape := aaChainShape ch.aa repr.shape
  match bbChainDecode ch.bb bs with
  | .error e => .error e
  | .ok inner =>
    let abRes : Except String NdArr :=
      match ch.ab with
      | .bytes _ =>
        match bytesDecode inner abShape with
        | none => .error "read_exact failed"
        | some arr => .ok arr
      | .shardingIndexed s => shardDecode s inner ⟨abShape, repr.fill⟩
    match abRes with
    | .error e => .error e
    | .ok arr => .ok (aaChainDecode ch.aa arr)

/-- Store keys: the `/`-joined name components of a `NodeKey`. -/
abbrev StoreKey := List String

/-- In-memory model of the key→value store (`HashMapStore` through the
`Store` traits): an association list from keys to byte values. -/
abbrev StoreMap := List (StoreKey × List Nat)

/-- `ReadableStore::get`. -/
def getKey (st : StoreMap) (k : StoreKey) : Option (List Nat) :=
  match st.find? (fun p => p.1 == k) with
  | some p => some p.2
  | none => none

/-- `WriteableStore::set`: truncating write of a whole value. -/
def setKey (st : StoreMap) (k : StoreKey) (v : List Nat) : StoreMap :=
  if st.any (fun p => p.1 == k) then st.map (fun p => if p.1 == k then (k, v) else p)
  else st ++ [(k, v)]

/-- `WriteableStore::erase`. -/
def eraseKey (st : StoreMap) (k : StoreKey) : StoreMap :=
  st.filter (fun p => p.1 != k)

/-- The array-node state the I/O layer reads from `ArrayMetadata`: shape,
regular chunk grid shape, effective fill value (at `T = u8`) and codec
chain. -/
structure ArrayMeta where
  shape : List Nat
  chunkShape : List Nat
  fill : Nat
  codecs : CodecChain
  deriving Repr, DecidableEq

/-- `DefaultChunkKeyEncoding` with the `/` separator below the array's root
key (chunk_key_encoding.rs): components `["c", d0, d1, …]`. -/
def chunkKey (idx : List Nat) : StoreKey :=
  "c" :: idx.map (fun n => toString n)

/-- `ArrayMetadata::chunk_should_exist_unchecked`: the maximum chunk index is
`voxel_chunk(shape).0`, i.e. `shape[d] / chunk_shape[d]` per axis, and every
axis of the queried index must be `≤` it. -/
def chunkShouldExist (m : ArrayMeta) (idx : List Nat) : Bool :=
  let maxChunk := (m.shape.zip m.chunkShape).map (fun p => p.1 / p.2)
  (maxChunk.zip idx).all (fun p => decide (p.2 ≤ p.1))

/-- `Array::read_chunk` at `T = u8`: `.ok none` is the out-of-bounds result;
a missing store key yields a fill-valued chunk of the full chunk shape
(`empty_chunk`); otherwise the stored bytes are decoded with the chunk's full
shape as the decoded representation (`chunk_repr`). -/
def readChunk (m : ArrayMeta) (st : StoreMap) (idx : List Nat) :
    Except String (Option NdArr) :=
  if !chunkShouldExist m idx then .ok none
  else
    match getKey st (chunkKey idx) with
    | some bs =>
      match codecChainDecode m.codecs bs ⟨m.chunkShape, m.fill⟩ with
      | .error e => .error e
      | .ok a => .ok (some a)
    | none => .ok (some (fillArr m.chunkShape m.fill))

/-- `Array::write_chunk` at `T = u8`, threading the store through the side
effects in source order: the chunk-shape check, then — when every element
equals the fill value — an erase of the chunk key WITHOUT returning, then the
unconditional encode into a store writer for the same key. -/
def writeChunk (m : ArrayMeta) (st : StoreMap) (idx : List Nat) (chunk : NdArr) :
    Option String × StoreMap :=
  if idx.length ≠ m.chunkShape.length then (some "dimension mismatch", st)
  else if (chunk.shape.zip m.chunkShape).any (fun p => p.1 != p.2) then
    (some "Chunk is the wrong shape", st)
  else
    let key := chunkKey idx
    let st1 := if chunk.data.all (fun v => v == m.fill) then eraseKey st key else st
    match codecChainEncode m.codecs chunk with
    | none => (some "encode panicked", st1)
    | some bs => (none, setKey st1 key bs)

/-- `ArrayRegion::is_whole_unchecked`. -/
def isWholeUnchecked (region : List ArraySlice) (shape : List Nat) : Bool :=
  (region.zip shape).all (fun p => p.1.offset == 0 && p.1.shape == p.2)

/-- One iteration of the `Array::write_region` chunk loop: slice the source
by the out region; whole chunks go through `write_chunk`, partial chunks are
read (unwrap of the out-of-bounds `None` panics), patched and written
back.  Errors stop the loop. -/
def writeRegionStep (m : ArrayMeta) (arrayWithin : NdArr)
    (acc : Option String × StoreMap) (pc : PartialChunk) :
    Option String × StoreMap :=
  match acc.1 with
  | some _ => acc
  | none =>
    let subArr := sliceArr arrayWithin (pc.outRegion.map (fun s => s.offset))
      (pc.outRegion.map (fun s => s.shape))
    if isWholeUnchecked pc.chunkRegion m.chunkShape then
      writeChunk m acc.2 pc.chunkIdx subArr
    else
      match readChunk m acc.2 pc.chunkIdx with
      | .error _ => (some "IO error", acc.2)
      | .ok none => (some "called Option::unwrap on a None value", acc.2)
      | .ok (some chunk) =>
        writeChunk m acc.2 pc.chunkIdx
          (assignRegion chunk (pc.chunkRegion.map (fun s => s.offset)) subArr)

/-- `Array::write_region` at `T = u8`: build the region from the offset and
the source shape, return untouched when `limit_extent_unchecked` is `None`,
then — as in the source — iterate `chunks_in_region_unchecked` over the
UNCLIPPED region, slicing the source by the unclipped region's
`at_origin`. -/
def writeRegion (m : ArrayMeta) (st : StoreMap) (offset : List Nat) (a : NdArr) :
    Option String × StoreMap :=
  if offset.length ≠ a.shape.length then (some "dimension mismatch", st)
  else
    let region := List.zipWith ArraySlice.mk offset a.shape
    if (limitExtentUnchecked region m.shape).isNone then (none, st)
    else
      let arrayWithin := sliceArr a (List.replicate region.length 0)
        (region.map (fun s => s.shape))
      (chunksInRegion m.chunkShape region).foldl (writeRegionStep m arrayWithin)
        (none, st)

/-- The default codec chain: no AA codecs, little-endian bytes codec, no BB
codecs. -/
def defChainEx : CodecChain := ⟨[], .bytes (some .little), []⟩

/-- Example array node: shape `[1]`, chunk shape `[1]`, fill `0`, default
codec chain. -/
def meta1ex : ArrayMeta := ⟨[1], [1], 0, defChainEx⟩

/-- Example array node: shape `[4]`, chunk shape `[2]`, fill `0`, default
codec chain. -/
def meta4ex : ArrayMeta := ⟨[4], [2], 0, defChainEx⟩

/-- Example sharding codec: inner chunk shape `[1]`, default inner chain. -/
def shardEx : ShardingIndexedCodec := ⟨[1], ⟨[], some .little, []⟩⟩

/-- Example codec chain whose array→bytes codec is the sharding codec. -/
def shardChainEx : CodecChain := ⟨[], .shardingIndexed shardEx, []⟩

/-- C1: decoding the bytes produced by encoding through a codec chain whose
AB codec is the sharding codec does NOT yield the original array: for the
one-element u8 array `[5]` with inner chunk shape `[1]`, encode produces a
17-byte shard (payload plus bare 16-byte index), and decode — which seeks to
`End(-(16·N + 4))` expecting an index checksum — fails before reading any
sub-chunk, so `decode(encode(A)) ≠ A`. -/
theorem C1_sharding_roundtrip_fails :
    codecChainEncode shardChainEx ⟨[1], [5]⟩
      = some [5, 0, 0, 0, 0, 0, 0, 0, 0, 1, 0, 0, 0, 0, 0, 0, 0]
    ∧ codecChainDecode shardChainEx [5, 0, 0, 0, 0, 0, 0, 0, 0, 1, 0, 0, 0, 0, 0, 0, 0]
        ⟨[1], 0⟩
      = .error "Could not construct chunk spec" := by
  exact ⟨rfl, rfl⟩

/-- C2: writing an all-fill-value chunk does NOT leave the chunk key absent:
`write_chunk` erases the key but then — the source has no early return —
encodes the chunk and writes it back under the same key, so after the call
the key maps to the encoded all-fill chunk. -/
theorem C2_write_chunk_all_fill_writes_key :
    writeChunk meta1ex [(chunkKey [0], [9])] [0] ⟨[1], [0]⟩
      = (none, [(chunkKey [0], [0])])
    ∧ getKey (writeChunk meta1ex [(chunkKey [0], [9])] [0] ⟨[1], [0]⟩).2 (chunkKey [0])
      = some [0] := by
  exact ⟨rfl, rfl⟩

/-- C3: the shard produced by `ShardingIndexedCodec::encode` is the payloads
followed by the bare 16-byte-per-entry index, with NO trailing CRC-32C: for a
one-byte array and a single sub-chunk the shard is 17 bytes — the 1-byte
payload plus one index entry — not the `1 + 16·N + 4` bytes the layout with a
4-byte index checksum would require. -/
theorem C3_shard_encode_writes_no_checksum :
    shardEncode shardEx ⟨[1], [5]⟩ = some ([5] ++ ChunkAddress.writeTo ⟨0, 1⟩)
    ∧ ([5] ++ ChunkAddress.writeTo ⟨0, 1⟩).length = 1 + 16 * 1
    ∧ 1 + 16 * 1 ≠ 1 + 16 * 1 + 4 := by
  exact ⟨rfl, rfl, by decide⟩

/-- C4: the checksum verification in `ChunkSpec::from_reader` is inverted:
a footer whose stored checksum (0) DIFFERS from the CRC-32C of its 16 index
bytes parses successfully, while a footer whose stored checksum EQUALS that
CRC fails with `ChecksumFailure`. -/
theorem C4_checksum_check_inverted :
    ChunkSpec.fromReader (List.replicate 20 0) [1] = .ok ⟨[⟨0, 0⟩], [1]⟩
    ∧ fromLe ((List.replicate 20 0).drop 16) = 0
    ∧ crc32c (List.replicate 16 0) = 1114675946
    ∧ (0 : Nat) ≠ 1114675946
    ∧ ChunkSpec.fromReader
        (List.replicate 16 0 ++ leBytes 4 (crc32c (List.replicate 16 0))) [1]
      = .error .checksumFailure := by
  exact ⟨rfl, rfl, rfl, by decide, rfl⟩

/-- C5: `write_region` does not write the request clipped to the array's
bounds: for an array of shape `[4]` with chunk shape `[2]`, writing a shape
`[3]` source at offset `[3]` (clipped extent: the single cell at index 3,
inside chunk 1) makes the source iterate the UNCLIPPED region's chunks 1, 2
and 3 — it writes chunk 2 (entirely outside the array) from unclipped source
data and then panics unwrapping the out-of-bounds read of chunk 3. -/
theorem C5_write_region_ignores_clipping :
    writeRegion meta4ex [] [3] ⟨[3], [7, 7, 7]⟩
      = (some "called Option::unwrap on a None value",
         [(chunkKey [1], [0, 7]), (chunkKey [2], [7, 7])]) := by
  exact rfl

/-- C6 counterexample: with array shape `[4]` and chunk shape `[2]` the
maximum chunk index claimed is `ceil(4/2) - 1 = 1`, so `read_chunk([2])`
should be the out-of-bounds result; the code instead treats `4 / 2 = 2` as
in bounds and returns a fill-valued chunk. -/
theorem C6_ceil_bound_counterexample :
    (4 + 2 - 1) / 2 - 1 = 1
    ∧ 2 > 1
    ∧ readChunk meta4ex [] [2] = .ok (some (fillArr [2] 0)) := by
  refine ⟨by decide, by decide, rfl⟩

/-- C7 counterexample: for a region with `offset = 5` on an axis of array
shape `5`, the claim requires `limit_extent` to return `None`
(`offset ≥ array_shape`), but the code's strict comparison accepts it and
returns a zero-extent slice. -/
theorem C7_boundary_counterexample :
    (5 : Nat) ≥ 5
    ∧ limitExtentUnchecked [⟨5, 3⟩] [5] = some [⟨5, 0⟩] := by
  exact ⟨by decide, rfl⟩

/-- C8 counterexample: the region `offset 0, shape 4` over chunk shape `[2]`
has its end exactly on a chunk boundary, yet `chunks_in_region` yields three
partial chunks, the last of which (chunk index 2) has extent 0. -/
theorem C8_zero_extent_counterexample :
    (0 + 4) % 2 = 0
    ∧ chunksInRegion [2] [⟨0, 4⟩]
      = [⟨[0], [⟨0, 2⟩], [⟨0, 2⟩]⟩, ⟨[1], [⟨0, 2⟩], [⟨2, 2⟩]⟩, ⟨[2], [⟨0, 0⟩], [⟨4, 0⟩]⟩]
    ∧ ((chunksInRegion [2] [⟨0, 4⟩]).any
        (fun pc => pc.chunkRegion.any (fun sl => sl.shape == 0))) = true := by
  refine ⟨by decide, by decide, by decide⟩

/-- C9 counterexample: the two-character string `"__"` begins with the
reserved prefix `"__"`, yet `NodeName::validate` accepts it — the reserved
prefix check only fires when a third character is processed. -/
theorem C9_double_underscore_counterexample :
    (['_', '_'] : List Char).take 2 = ['_', '_']
    ∧ validate ['_', '_'] = .ok () := by
  exact ⟨rfl, rfl⟩

theorem zip_any_true_iff {α β : Type} (p : α × β → Bool) (da : α) (db : β) :
    ∀ (a : List α) (b : List β),
      ((a.zip b).any p = true ↔
        ∃ i, i < a.length ∧ i < b.length ∧ p (a.getD i da, b.getD i db) = true)
  | [], b => by simp
  | x :: xs, [] => by simp
  | x :: xs, y :: ys => by
    simp only [List.zip_cons_cons, List.any_cons, Bool.or_eq_true]
    constructor
    · rintro (h | h)
      · exact ⟨0, by simp, by simp, by simpa using h⟩
      · obtain ⟨i, h1, h2, h3⟩ := (zip_any_true_iff p da db xs ys).mp h
        exact ⟨i + 1, by simpa using h1, by simpa using h2, by simpa using h3⟩
    · rintro ⟨i, h1, h2, h3⟩
      match i with
      | 0 => exact Or.inl (by simpa using h3)
      | j + 1 =>
        exact Or.inr ((zip_any_true_iff p da db xs ys).mpr
          ⟨j, by simpa using h1, by simpa using h2, by simpa using h3⟩)

theorem zip_all_false_iff {α β : Type} (p : α × β → Bool) (da : α) (db : β) :
    ∀ (a : List α) (b : List β),
      ((a.zip b).all p = false ↔
        ∃ i, i < a.length ∧ i < b.length ∧ p (a.getD i da, b.getD i db) = false)
  | [], b => by simp
  | x :: xs, [] => by simp
  | x :: xs, y :: ys => by
    simp only [List.zip_cons_cons, List.all_cons, Bool.and_eq_false_eq_eq_false_or_eq_false]
    constructor
    · rintro (h | h)
      · exact ⟨0, by simp, by simp, by simpa using h⟩
      · obtain ⟨i, h1, h2, h3⟩ := (zip_all_false_iff p da db xs ys).mp h
        exact ⟨i + 1, by simpa using h1, by simpa using h2, by simpa using h3⟩
    · rintro ⟨i, h1, h2, h3⟩
      match i with
      | 0 => exact Or.inl (by simpa using h3)
      | j + 1 =>
        exact Or.inr ((zip_all_false_iff p da db xs ys).mpr
          ⟨j, by simpa using h1, by simpa using h2, by simpa using h3⟩)

/-- C10: calling `write_chunk` with a chunk whose shape differs on some axis
from the chunk grid's chunk shape fails with the shape error raised before
any store access, so the returned store state is exactly the input store: no
key is written or erased. -/
theorem C10_write_chunk_bad_shape (m : ArrayMeta) (st : StoreMap) (idx : List Nat)
    (chunk : NdArr) (hidx : idx.length = m.chunkShape.length)
    (h : ∃ i, i < chunk.shape.length ∧ i < m.chunkShape.length ∧
      chunk.shape.getD i 0 ≠ m.chunkShape.getD i 0) :
    writeChunk m st idx chunk = (some "Chunk is the wrong shape", st) := by
  obtain ⟨i, hi1, hi2, hne⟩ := h
  unfold writeChunk
  rw [if_neg (by omega)]
  rw [if_pos]
  exact (zip_any_true_iff (fun p => p.1 != p.2) 0 0 chunk.shape m.chunkShape).mpr
    ⟨i, hi1, hi2, by simpa using hne⟩

/-- C10 witness: a concrete wrong-shape write fails and leaves the empty
store unchanged. -/
theorem C10_write_chunk_bad_shape_witness :
    writeChunk meta1ex [] [0] ⟨[2], [0, 0]⟩ = (some "Chunk is the wrong shape", []) :=
  C10_write_chunk_bad_shape meta1ex [] [0] ⟨[2], [0, 0]⟩ (by decide)
    ⟨0, by decide, by decide, by decide⟩

theorem map_zip_getD (f : Nat × Nat → Nat) (a b : List Nat) (i : Nat)
    (ha : i < a.length) (hb : i < b.length) :
    ((a.zip b).map f).getD i 0 = f (a.getD i 0, b.getD i 0) := by
  have hz : i < (a.zip b).length := by
    rw [List.length_zip]; exact lt_min ha hb
  have hm : i < ((a.zip b).map f).length := by simpa using hz
  rw [List.getD_eq_getElem _ _ hm, List.getD_eq_getElem _ _ ha,
    List.getD_eq_getElem _ _ hb, List.getElem_map, List.getElem_zip]

/-- C6 amended: `read_chunk(idx)` returns the out-of-bounds result `Ok(None)`
exactly when some axis of `idx` exceeds `shape[d] / chunk_shape[d]` — the
chunk index of the voxel at coordinate `shape` (floor division), not
`ceil(shape/chunk) - 1`; when the chunk shape divides the array shape the
code accepts one more chunk index per axis than the claim's bound. -/
theorem C6_read_chunk_oob_amended (m : ArrayMeta) (st : StoreMap) (idx : List Nat)
    (hnd : m.chunkShape.length = m.shape.length)
    (hidx : idx.length = m.shape.length) :
    (readChunk m st idx = .ok none ↔
      ∃ i, i < idx.length ∧
        m.shape.getD i 0 / m.chunkShape.getD i 0 < idx.getD i 0) := by
  have hchunk : readChunk m st idx = .ok none ↔ chunkShouldExist m idx = false := by
    unfold readChunk
    by_cases hc : chunkShouldExist m idx
    · simp only [hc, Bool.not_true, Bool.false_eq_true, if_false]
      cases hk : getKey st (chunkKey idx) with
      | none => simp
      | some bs =>
        cases hd : codecChainDecode m.codecs bs ⟨m.chunkShape, m.fill⟩ with
        | error e => simp [hd]
        | ok a => simp [hd]
    · simp [hc]
  rw [hchunk]
  unfold chunkShouldExist
  rw [zip_all_false_iff (fun p => decide (p.2 ≤ p.1)) 0 0]
  constructor
  · rintro ⟨i, h1, h2, h3⟩
    have hi : i < m.shape.length := by
      have := h1
      simp only [List.length_map, List.length_zip, lt_min_iff] at this
      exact this.1
    refine ⟨i, by omega, ?_⟩
    have := map_zip_getD (fun p => p.1 / p.2) m.shape m.chunkShape i hi (by omega)
    simp only [this] at h3
    simpa using h3
  · rintro ⟨i, h1, h2⟩
    have hi : i < m.shape.length := by omega
    refine ⟨i, ?_, by omega, ?_⟩
    · simpa [List.length_zip, hnd] using hi
    · have := map_zip_getD (fun p => p.1 / p.2) m.shape m.chunkShape i hi (by omega)
      simp only [this]
      simpa using h2

/-- C6 witness: reading chunk index 3 of the shape `[4]`, chunk shape `[2]`
array is out of bounds because `3 > 4 / 2`. -/
theorem C6_read_chunk_oob_witness :
    readChunk meta4ex [] [3] = .ok none ↔
      ∃ i, i < 1 ∧
        meta4ex.shape.getD i 0 / meta4ex.chunkShape.getD i 0 < ([3] : List Nat).getD i 0 :=
  C6_read_chunk_oob_amended meta4ex [] [3] (by decide) (by decide)

theorem limitExtent_eq_none_iff (sl : ArraySlice) (m : Nat) :
    sl.limitExtent m = none ↔ m < sl.offset := by
  simp only [ArraySlice.limitExtent, ArraySlice.fromMax, ArraySlice.endOf]
  split
  · next hgt => exact iff_of_true rfl (by omega)
  · next hgt => exact iff_of_false (by simp) (by omega)

theorem limitExtent_eq_some (sl : ArraySlice) (m : Nat) (h : sl.offset ≤ m) :
    sl.limitExtent m = some ⟨sl.offset, min m sl.endOf - sl.offset⟩ := by
  simp only [ArraySlice.limitExtent, ArraySlice.fromMax, ArraySlice.endOf]
  rw [if_neg]
  simp only [gt_iff_lt, not_lt]
  exact le_min h (Nat.le_add_right _ _)

/-- C7 amended: `limit_extent` returns `None` if and only if some axis has
`offset > array_shape[d]` — STRICTLY greater, so `offset = array_shape[d]` is
accepted and produces a zero-extent slice — and otherwise returns the region
with the same per-axis offsets and each per-axis end truncated to
`min(end, array_shape[d])`. -/
theorem C7_limit_extent_amended (region : List ArraySlice) (max : List Nat)
    (h : region.length = max.length) :
    (limitExtentUnchecked region max = none ↔
      ∃ i, i < region.length ∧ max.getD i 0 < (region.getD i ⟨0, 0⟩).offset)
    ∧ (∀ out, limitExtentUnchecked region max = some out →
        out.length = region.length ∧ ∀ i, i < region.length →
          (out.getD i ⟨0, 0⟩).offset = (region.getD i ⟨0, 0⟩).offset ∧
          (out.getD i ⟨0, 0⟩).endOf
            = min ((region.getD i ⟨0, 0⟩).endOf) (max.getD i 0)) := by
  induction region generalizing max with
  | nil =>
    refine ⟨by simp [limitExtentUnchecked], ?_⟩
    intro out hout
    simp [limitExtentUnchecked] at hout
    simp [hout]
  | cons sl rs ih =>
    cases max with
    | nil => simp at h
    | cons m ms =>
      have hlen : rs.length = ms.length := by simpa using h
      obtain ⟨ihnone, ihsome⟩ := ih ms hlen
      by_cases hm : m < sl.offset
      · have h0 : sl.limitExtent m = none := (limitExtent_eq_none_iff sl m).mpr hm
        have hval : limitExtentUnchecked (sl :: rs) (m :: ms) = none := by
          simp only [limitExtentUnchecked, h0]
        refine ⟨?_, ?_⟩
        · rw [hval]
          exact iff_of_true rfl ⟨0, by simp, by simpa using hm⟩
        · intro out hout
          rw [hval] at hout
          exact absurd hout (by simp)
      · push_neg at hm
        have h0 := limitExtent_eq_some sl m hm
        cases hrest : limitExtentUnchecked rs ms with
        | none =>
          have hval : limitExtentUnchecked (sl :: rs) (m :: ms) = none := by
            simp only [limitExtentUnchecked, h0, hrest]
          refine ⟨?_, ?_⟩
          · rw [hval]
            refine iff_of_true rfl ?_
            obtain ⟨i, hi, hlt⟩ := ihnone.mp hrest
            exact ⟨i + 1, by simpa using hi, by simpa using hlt⟩
          · intro out hout
            rw [hval] at hout
            exact absurd hout (by simp)
        | some rest =>
          have hval : limitExtentUnchecked (sl :: rs) (m :: ms)
              = some (⟨sl.offset, min m sl.endOf - sl.offset⟩ :: rest) := by
            simp only [limitExtentUnchecked, h0, hrest]
          refine ⟨?_, ?_⟩
          · rw [hval]
            refine iff_of_false (by simp) ?_
            rintro ⟨i, hi, hlt⟩
            match i with
            | 0 =>
              have hcon : m < sl.offset := by simpa using hlt
              omega
            | j + 1 =>
              have hnone : limitExtentUnchecked rs ms = none :=
                ihnone.mpr ⟨j, by simpa using hi, by simpa using hlt⟩
              rw [hrest] at hnone
              exact absurd hnone (by simp)
          · intro out hout
            rw [hval] at hout
            have hout2 : out = ⟨sl.offset, min m sl.endOf - sl.offset⟩ :: rest := by
              simpa using hout.symm
            subst hout2
            obtain ⟨hrl, hri⟩ := ihsome rest hrest
            refine ⟨by simpa using hrl, ?_⟩
            intro i hi
            match i with
            | 0 =>
              refine ⟨by simp, ?_⟩
              simp only [List.getD_cons_zero, ArraySlice.endOf]
              omega
            | j + 1 =>
              have := hri j (by simpa using hi)
              simpa using this

/-- C7 witness: a region strictly inside the bounds is clipped with offsets
preserved and ends truncated. -/
theorem C7_limit_extent_witness :
    (limitExtentUnchecked [⟨1, 9⟩] [5] = none ↔
      ∃ i, i < 1 ∧ ([5] : List Nat).getD i 0 < (([⟨1, 9⟩] : List ArraySlice).getD i ⟨0, 0⟩).offset)
    ∧ (∀ out, limitExtentUnchecked [⟨1, 9⟩] [5] = some out →
        out.length = 1 ∧ ∀ i, i < 1 →
          (out.getD i ⟨0, 0⟩).offset = (([⟨1, 9⟩] : List ArraySlice).getD i ⟨0, 0⟩).offset ∧
          (out.getD i ⟨0, 0⟩).endOf
            = min ((([⟨1, 9⟩] : List ArraySlice).getD i ⟨0, 0⟩).endOf)
                (([5] : List Nat).getD i 0)) :=
  C7_limit_extent_amended [⟨1, 9⟩] [5] (by decide)

theorem map_getD {α β : Type} (f : α → β) (l : List α) (i : Nat) (da : α) (db : β)
    (h : i < l.length) : (l.map f).getD i db = f (l.getD i da) := by
  rw [List.getD_eq_getElem _ _ (by simpa using h), List.getD_eq_getElem _ _ h,
    List.getElem_map]

theorem zip_getD {α β : Type} (a : List α) (b : List β) (i : Nat) (da : α) (db : β)
    (ha : i < a.length) (hb : i < b.length) :
    (a.zip b).getD i (da, db) = (a.getD i da, b.getD i db) := by
  have hz : i < (a.zip b).length := by rw [List.length_zip]; exact lt_min ha hb
  rw [List.getD_eq_getElem _ _ hz, List.getD_eq_getElem _ _ ha,
    List.getD_eq_getElem _ _ hb, List.getElem_zip]

theorem mem_cOrderPos (shape : List Nat) (c : List Nat) :
    c ∈ cOrderPos shape ↔
      c.length = shape.length ∧ ∀ i, i < shape.length → c.getD i 0 < shape.getD i 0 := by
  induction shape generalizing c with
  | nil =>
    simp only [cOrderPos, List.mem_singleton, List.length_nil]
    constructor
    · rintro rfl
      exact ⟨rfl, fun i hi => absurd hi (Nat.not_lt_zero i)⟩
    · rintro ⟨hl, _⟩
      exact List.length_eq_zero.mp hl
  | cons s rest ih =>
    simp only [cOrderPos, List.mem_flatMap, List.mem_map, List.mem_range]
    constructor
    · rintro ⟨i, hi, c', hc', rfl⟩
      obtain ⟨hl, hb⟩ := (ih c').mp hc'
      refine ⟨by simp [hl], ?_⟩
      intro j hj
      match j with
      | 0 => simpa using hi
      | k + 1 =>
        have hk : k < rest.length := by simpa using hj
        simpa using hb k hk
    · rintro ⟨hl, hb⟩
      match c with
      | [] => simp at hl
      | x :: c' =>
        refine ⟨x, by simpa using hb 0 (by simp), c', ?_, rfl⟩
        refine (ih c').mpr ⟨by simpa using hl, ?_⟩
        intro k hk
        simpa using hb (k + 1) (by simpa using hk)

theorem pcItem_chunkRegion_getD (minChunk minOff maxChunk maxOff cs lcl : List Nat)
    (d : Nat) (hd : d < minChunk.length) :
    (pcItem minChunk minOff maxChunk maxOff cs lcl).chunkRegion.getD d ⟨0, 1⟩
      = ⟨if lcl.getD d 0 = 0 then minOff.getD d 0 else 0,
         if minChunk.getD d 0 + lcl.getD d 0 = maxChunk.getD d 0
         then maxOff.getD d 0 - (if lcl.getD d 0 = 0 then minOff.getD d 0 else 0)
         else cs.getD d 0 - (if lcl.getD d 0 = 0 then minOff.getD d 0 else 0)⟩ := by
  simp only [pcItem]
  rw [List.getD_eq_getElem _ _ (by simpa using hd), List.getElem_map, List.getElem_range]

/-- C8 amended: for every non-empty region (positive per-axis extents,
positive chunk shape) whose end on axis `d` is an exact multiple of the chunk
shape on that axis, `chunks_in_region` DOES iterate the final chunk on that
axis: it yields a partial chunk whose extent on axis `d` is zero (the final
chunk index `end/chunk_shape` is always included, because the iterator's
bound is `voxel_chunk(end)`). -/
theorem C8_zero_extent_chunk_amended (region : List ArraySlice) (cs : List Nat)
    (d : Nat) (hlen : region.length = cs.length) (hne : region ≠ [])
    (_hpos : ∀ sl ∈ region, 0 < sl.shape) (_hcs : ∀ c ∈ cs, 0 < c)
    (hd : d < region.length)
    (hmul : (region.getD d ⟨0, 0⟩).endOf % cs.getD d 0 = 0) :
    ∃ pc ∈ chunksInRegion cs region, (pc.chunkRegion.getD d ⟨0, 1⟩).shape = 0 := by
  have hn : 0 < region.length := List.length_pos.mpr hne
  set offs := region.map (fun s => s.offset) with hoffs
  set ends := region.map (fun s => s.endOf) with hends
  set mn1 := (offs.zip cs).map (fun p => p.1 / p.2) with hmn1
  set mn2 := (offs.zip cs).map (fun p => p.1 % p.2) with hmn2
  set mx1 := (ends.zip cs).map (fun p => p.1 / p.2) with hmx1
  set mx2 := (ends.zip cs).map (fun p => p.1 % p.2) with hmx2
  set shape := (mn1.zip mx1).map (fun p => p.2 - p.1 + 1) with hshape
  have hoffsLen : offs.length = region.length := by simp [hoffs]
  have hendsLen : ends.length = region.length := by simp [hends]
  have hmn1Len : mn1.length = region.length := by
    simp [hmn1, List.length_zip, hoffsLen, hlen]
  have hmx1Len : mx1.length = region.length := by
    simp [hmx1, List.length_zip, hendsLen, hlen]
  have hshapeLen : shape.length = region.length := by
    simp [hshape, List.length_zip, hmn1Len, hmx1Len]
  have hmn1D : ∀ i, i < region.length →
      mn1.getD i 0 = (region.getD i ⟨0, 0⟩).offset / cs.getD i 0 := by
    intro i hi
    rw [hmn1, map_getD _ _ i (0, 0) 0 (by rw [List.length_zip]; exact lt_min (by omega) (by omega)),
      zip_getD _ _ i 0 0 (by omega) (by omega)]
    rw [hoffs, map_getD _ _ i ⟨0, 0⟩ 0 hi]
  have hmx1D : ∀ i, i < region.length →
      mx1.getD i 0 = (region.getD i ⟨0, 0⟩).endOf / cs.getD i 0 := by
    intro i hi
    rw [hmx1, map_getD _ _ i (0, 0) 0 (by rw [List.length_zip]; exact lt_min (by omega) (by omega)),
      zip_getD _ _ i 0 0 (by omega) (by omega)]
    rw [hends, map_getD _ _ i ⟨0, 0⟩ 0 hi]
  have hmx2D : ∀ i, i < region.length →
      mx2.getD i 0 = (region.getD i ⟨0, 0⟩).endOf % cs.getD i 0 := by
    intro i hi
    rw [hmx2, map_getD _ _ i (0, 0) 0 (by rw [List.length_zip]; exact lt_min (by omega) (by omega)),
      zip_getD _ _ i 0 0 (by omega) (by omega)]
    rw [hends, map_getD _ _ i ⟨0, 0⟩ 0 hi]
  have hmn1_le_mx1 : ∀ i, i < region.length → mn1.getD i 0 ≤ mx1.getD i 0 := by
    intro i hi
    rw [hmn1D i hi, hmx1D i hi]
    exact Nat.div_le_div_right (Nat.le_add_right _ _)
  set lcl := (mn1.zip mx1).map (fun p => p.2 - p.1) with hlcl
  have hlclLen : lcl.length = region.length := by
    simp [hlcl, List.length_zip, hmn1Len, hmx1Len]
  have hlclD : ∀ i, i < region.length →
      lcl.getD i 0 = mx1.getD i 0 - mn1.getD i 0 := by
    intro i hi
    rw [hlcl, map_getD _ _ i (0, 0) 0 (by rw [List.length_zip]; omega),
      zip_getD _ _ i 0 0 (by omega) (by omega)]
  have hshapeD : ∀ i, i < region.length →
      shape.getD i 0 = mx1.getD i 0 - mn1.getD i 0 + 1 := by
    intro i hi
    rw [hshape, map_getD _ _ i (0, 0) 0 (by rw [List.length_zip]; omega),
      zip_getD _ _ i 0 0 (by omega) (by omega)]
  have hmem0 : lcl ∈ cOrderPos shape := by
    refine (mem_cOrderPos shape lcl).mpr ⟨by omega, ?_⟩
    intro i hi
    have hi' : i < region.length := by omega
    rw [hlclD i hi', hshapeD i hi']
    omega
  have hmem : lcl ∈ cIter shape := by
    unfold cIter
    rw [if_neg]
    · exact hmem0
    · intro h
      rcases Bool.or_eq_true_iff.mp h with h1 | h2
      · rw [List.isEmpty_iff] at h1
        rw [h1] at hshapeLen
        simp at hshapeLen
        omega
      · obtain ⟨x, hx, hx0⟩ := List.any_eq_true.mp h2
        obtain ⟨i, hilt, hieq⟩ := List.mem_iff_getElem.mp hx
        have hi' : i < region.length := by omega
        have hxval : shape.getD i 0 = x := by
          rw [List.getD_eq_getElem _ _ hilt, hieq]
        rw [hshapeD i hi'] at hxval
        have hx0' : x = 0 := by simpa using hx0
        omega
  have hcir : chunksInRegion cs region = (cIter shape).map (pcItem mn1 mn2 mx1 mx2 cs) :=
    rfl
  refine ⟨pcItem mn1 mn2 mx1 mx2 cs lcl, ?_, ?_⟩
  · rw [hcir]
    exact List.mem_map_of_mem _ hmem
  · rw [pcItem_chunkRegion_getD mn1 mn2 mx1 mx2 cs lcl d (by omega)]
    simp only
    have hlcld := hlclD d hd
    have hle := hmn1_le_mx1 d hd
    have hcond : mn1.getD d 0 + lcl.getD d 0 = mx1.getD d 0 := by omega
    rw [if_pos hcond, hmx2D d hd, hmul]
    omega

/-- C8 witness: the region `offset 0, shape 4` over chunk shape `[2]` yields a
partial chunk of zero extent on axis 0. -/
theorem C8_zero_extent_chunk_witness :
    ∃ pc ∈ chunksInRegion [2] [⟨0, 4⟩], (pc.chunkRegion.getD 0 ⟨0, 1⟩).shape = 0 :=
  C8_zero_extent_chunk_amended [⟨0, 4⟩] [2] 0 (by decide) (by decide) (by decide)
    (by decide) (by decide) (by decide)

theorem validateLoop_iu_false (l : List Char) (ip : Bool) (len : Nat) :
    validateLoop l ip false len =
      if '/' ∈ l then .error .hasSlash
      else .ok (ip && l.all (fun c => c == '.'), len + l.length) := by
  induction l generalizing ip len with
  | nil => simp [validateLoop]
  | cons c rest ih =>
    simp only [validateLoop, Bool.false_and, Bool.false_eq_true, if_false, List.mem_cons,
      List.all_cons]
    by_cases hc : c = '/'
    · subst hc
      simp
    · rw [if_neg (by simpa using hc)]
      rw [ih]
      by_cases hm : '/' ∈ rest
      · rw [if_pos hm, if_pos (Or.inr hm)]
      · rw [if_neg hm, if_neg (by
          rintro (h | h)
          · exact hc h.symm
          · exact hm h)]
        have h1 : (ip && (c == '.') && rest.all (fun c => c == '.'))
            = (ip && ((c == '.') && rest.all (fun c => c == '.'))) := by
          rw [Bool.and_assoc]
        have h2 : len + 1 + rest.length = len + (c :: rest).length := by
          simp only [List.length_cons]
          omega
        rw [h1, h2]

/-- C9 amended: `NodeName` construction succeeds if and only if the string is
non-empty, not composed purely of `.` characters, contains no `/`, and does
not begin with the prefix `"__"` FOLLOWED BY AT LEAST ONE MORE CHARACTER —
the reserved-prefix check only fires while processing a third character, so
the two-character string `"__"` itself is accepted. -/
theorem C9_validate_amended (s : List Char) :
    validate s = .ok () ↔
      s ≠ [] ∧ ¬(∀ c ∈ s, c = '.') ∧ '/' ∉ s ∧ ¬(3 ≤ s.length ∧ s.take 2 = ['_', '_']) := by
  match s with
  | [] => simp [validate, validateLoop]
  | [c0] =>
    by_cases hC0 : c0 = '/'
    · simp [validate, validateLoop, hC0]
    · by_cases hp0 : c0 = '.'
      · simp [validate, validateLoop, hC0, hp0]
      · simp [validate, validateLoop, hC0, hp0, Ne.symm hC0]
  | [c0, c1] =>
    by_cases hC0 : c0 = '/'
    · simp [validate, validateLoop, hC0]
    · by_cases hC1 : c1 = '/'
      · simp [validate, validateLoop, hC0, hC1, Ne.symm hC0]
      · simp [validate, validateLoop, hC0, hC1, Ne.symm hC0, Ne.symm hC1]
  | c0 :: c1 :: c2 :: rest =>
    by_cases hC0 : c0 = '/'
    · simp [validate, validateLoop, hC0]
    · by_cases hC1 : c1 = '/'
      · simp [validate, validateLoop, hC0, hC1, Ne.symm hC0]
      · by_cases hU : c0 = '_' ∧ c1 = '_'
        · obtain ⟨h0, h1⟩ := hU
          subst h0; subst h1
          simp [validate, validateLoop, hC0, hC1]
        · have hiu : ((c0 == '_') && (c1 == '_')) = false := by
            rcases not_and_or.mp hU with h | h <;> simp [h]
          by_cases hC2 : c2 = '/'
          · simp [validate, validateLoop, hC0, hC1, hC2, hiu, Ne.symm hC0, Ne.symm hC1]
          · by_cases hR : '/' ∈ rest
            · simp [validate, validateLoop, hC0, hC1, hC2, hiu, validateLoop_iu_false, hR,
                Ne.symm hC0, Ne.symm hC1, Ne.symm hC2]
            · simp [validate, validateLoop, hC0, hC1, hC2, hiu, validateLoop_iu_false, hR,
                Ne.symm hC0, Ne.symm hC1, Ne.symm hC2, List.all_eq_true]
              tauto

end Zarr
